import Mathlib

/-!
Verification of the character-link fixing core of this repository
(`100Kanojo-CharacterLinkFix-Task.py`).

Texts are modelled as `List Char` (with `String` wrappers at the API
boundary).  Python string primitives (`str.strip`, `str.split`,
`str.splitlines`, substring search) are embedded as executable Lean
functions over character lists; the regex scans of the script are
embedded as explicit left-to-right scanners with the same matching
semantics as the patterns in the source.
-/

namespace CharacterLinkFix

/-- Whitespace as recognised by Python's `str.strip` / `str.split`,
restricted to the ASCII whitespace characters (the texts and names this
script handles; Python additionally treats exotic Unicode spaces as
whitespace). -/
def isPySpace (c : Char) : Bool :=
  c = ' ' || c = '\t' || c = '\n' || c = '\x0b' || c = '\x0c' || c = '\r'

/-- Python `str.strip()`: drop leading and trailing whitespace. -/
def pyStrip (l : List Char) : List Char :=
  ((l.dropWhile isPySpace).reverse.dropWhile isPySpace).reverse

/-- Helper for `pySplit`: accumulate the current word (reversed) while walking the list. -/
def pySplitGo : List Char → List Char → List (List Char)
  | [], acc => if acc.isEmpty then [] else [acc.reverse]
  | c :: cs, acc =>
    if isPySpace c then
      if acc.isEmpty then pySplitGo cs [] else acc.reverse :: pySplitGo cs []
    else
      pySplitGo cs (c :: acc)

/-- Python `str.split()` with no argument: split on runs of whitespace,
discarding empty components. -/
def pySplit (l : List Char) : List (List Char) :=
  pySplitGo l []

/-- Python `' '.join(words)`: words joined by single spaces. -/
def joinSpace : List (List Char) → List Char
  | [] => []
  | [w] => w
  | w :: ws => w ++ ' ' :: joinSpace ws

/-- Embeds `CharacterLinkFixBot.reverse_name` (source lines 50-58):
split on whitespace; with two or more components, join them reversed by
single spaces; otherwise return the input unchanged. -/
def reverseNameL (name : List Char) : List Char :=
  let parts := pySplit name
  if 2 ≤ parts.length then joinSpace parts.reverse else name

/-- `reverse_name` on `String`s. -/
def reverseName (name : String) : String :=
  ⟨reverseNameL name.data⟩

/-- Embeds the guarded choice of source lines 77-84: the base is replaced
by its reversal exactly when the reversal is in the valid-name list and
differs from the base; otherwise the base is kept. -/
def newBase (S : List (List Char)) (b : List Char) : List Char :=
  let rev := reverseNameL b
  if rev ∈ S ∧ rev ≠ b then rev else b

/-- Embeds the anchor handling of source lines 69-75: when the target
contains `#`, split at the first `#`; the anchor part keeps its `#`. -/
def splitAnchor (raw : List Char) : List Char × List Char :=
  if '#' ∈ raw then
    (raw.takeWhile (fun c => c ≠ '#'), raw.dropWhile (fun c => c ≠ '#'))
  else (raw, [])

/-- `final_target` of source line 86: new base with the anchor re-attached. -/
def finalTargetOf (S : List (List Char)) (raw : List Char) : List Char :=
  newBase S (splitAnchor raw).1 ++ (splitAnchor raw).2

/-- The target-only link form `[[t]]`. -/
def mkTargetOnly (t : List Char) : List Char :=
  '[' :: '[' :: (t ++ [']', ']'])

/-- The labelled link form `[[t|d]]`. -/
def mkLabeled (t d : List Char) : List Char :=
  '[' :: '[' :: (t ++ '|' :: (d ++ [']', ']']))

/-- `match.group(0)`: the full matched token rebuilt from its groups. -/
def mkFull (g1 : List Char) (lbl : Option (List Char)) : List Char :=
  match lbl with
  | none => mkTargetOnly g1
  | some d => mkLabeled g1 d

/-- Embeds `CharacterLinkFixBot.replace_link` (source lines 60-102).
`g1` is the regex group 1 (raw target before stripping), `lbl` the
optional group 3 (display label, `none` when no pipe was present;
an empty `some []` mirrors a falsy Python string). -/
def replaceLink (S : List (List Char)) (g1 : List Char) (lbl : Option (List Char)) :
    List Char :=
  let full := mkFull g1 lbl
  let raw := pyStrip g1
  let b := (splitAnchor raw).1
  let nb := newBase S b
  let ft := finalTargetOf S raw
  if ft = raw then
    match lbl with
    | some d => if d ≠ [] ∧ pyStrip d = b then mkTargetOnly ft else full
    | none => full
  else
    match lbl with
    | some d =>
      if d = [] then mkTargetOnly ft
      else if pyStrip d = b ∨ pyStrip d = nb then mkTargetOnly ft
      else mkLabeled ft d
    | none => mkTargetOnly ft

/-- One attempted match of the link regex
`\[\[([^\|\]]+)(\|([^\]]+))?\]\]` (source line 129) at the head of the
list, with Python's greedy semantics: returns group 1, the optional
group 3 and the remainder after the match. -/
def matchLink (l : List Char) :
    Option (List Char × Option (List Char) × List Char) :=
  match l with
  | '[' :: '[' :: r =>
    let t := r.takeWhile (fun c => c ≠ '|' && c ≠ ']')
    let r1 := r.dropWhile (fun c => c ≠ '|' && c ≠ ']')
    if t = [] then none
    else
      match r1 with
      | '|' :: r2 =>
        let d := r2.takeWhile (fun c => c ≠ ']')
        let r3 := r2.dropWhile (fun c => c ≠ ']')
        if d = [] then none
        else
          match r3 with
          | ']' :: ']' :: r4 => some (t, some d, r4)
          | _ => none
      | ']' :: ']' :: r2 => some (t, none, r2)
      | _ => none
  | _ => none

/-- The left-to-right `re.sub`-style scan replacing every link match via
`replaceLink`, as a fuel-indexed structural recursion (the fuel is the
input length, consumed one unit per step; each step consumes at least
one character, so the fuel never runs out on the initial call). -/
def replaceLinksF (S : List (List Char)) : Nat → List Char → List Char
  | 0, l => l
  | _ + 1, [] => []
  | n + 1, c :: cs =>
    match matchLink (c :: cs) with
    | some (t, d, rest) => replaceLink S t d ++ replaceLinksF S n rest
    | none => c :: replaceLinksF S n cs

/-- The full link-replacement pass over a character list. -/
def replaceLinks (S : List (List Char)) (l : List Char) : List Char :=
  replaceLinksF S l.length l

/-- Case-insensitive pattern test at the head of the list (protected-region
delimiters are matched case-insensitively, spec section 3). -/
def startsWithCI : List Char → List Char → Bool
  | [], _ => true
  | _ :: _, [] => false
  | p :: ps, c :: cs => (p.toLower = c.toLower) && startsWithCI ps cs

/-- Scan for the first (case-insensitive) occurrence of `pat`; return the
original characters up to and including that occurrence, and the rest. -/
def splitAtSub (pat : List Char) : List Char → Option (List Char × List Char)
  | [] => none
  | c :: cs =>
    if startsWithCI pat (c :: cs) then
      some ((c :: cs).take pat.length, (c :: cs).drop pat.length)
    else
      match splitAtSub pat cs with
      | some (a, b) => some (c :: a, b)
      | none => none

/-- The tags whose blocks the script shields from replacement
(source line 137: comment is handled separately, the rest are paired
`<tag>`...`</tag>` blocks). -/
def protTags : List (List Char) :=
  ["math".data, "nowiki".data, "pre".data, "source".data, "syntaxhighlight".data]

/-- Try to recognise one `<tag>`...`</tag>` block at the head of the list
for one tag: non-greedy up to the nearest closing delimiter. -/
def tagBlock (tag : List Char) (l : List Char) : Option (List Char × List Char) :=
  let opener := '<' :: (tag ++ ['>'])
  let closer := '<' :: '/' :: (tag ++ ['>'])
  if startsWithCI opener l then
    match splitAtSub closer (l.drop opener.length) with
    | some (mid, rest) => some (l.take opener.length ++ mid, rest)
    | none => none
  else none

/-- Try each protected tag in turn. -/
def tagBlockAny : List (List Char) → List Char → Option (List Char × List Char)
  | [], _ => none
  | tag :: tags, l =>
    match tagBlock tag l with
    | some r => some r
    | none => tagBlockAny tags l

/-- Modelled from the spec: `ProtectedRegionMasker` (spec sections 4.1 and
3).  The call `textlib.replaceExcept(..., ['comment', 'math', 'nowiki',
'pre', 'source', 'syntaxhighlight'], ...)` of source lines 133-139 relies
on pywikibot library code that is not part of this repository; the spec
describes it as recognising, at a given position, a protected span that
opens with a comment marker `<!--` or a `<tag>` delimiter and runs to the
nearest matching closing delimiter, spanning newlines, case-insensitively;
an unterminated opener is ordinary text (spec section 7).  Returns the
span and the rest. -/
def protStart (l : List Char) : Option (List Char × List Char) :=
  if startsWithCI "<!--".data l then
    match splitAtSub "-->".data (l.drop 4) with
    | some (mid, rest) => some (l.take 4 ++ mid, rest)
    | none => none
  else tagBlockAny protTags l

/-- A segment of the masked text: a protected span (restored verbatim) or
a candidate span (scanned for link tokens). -/
inductive Seg where
  | prot : List Char → Seg
  | cand : List Char → Seg
deriving DecidableEq, Repr

/-- The characters a segment carries. -/
def Seg.bytes : Seg → List Char
  | .prot p => p
  | .cand c => c

/-- Append a (possibly empty) candidate run in front of a segment list. -/
def pushCand (c : List Char) (segs : List Seg) : List Seg :=
  if c = [] then segs else Seg.cand c :: segs

/-- Modelled from the spec: the masking pass (spec section 4.1), as the
segment strategy the spec itself recommends (spec section 9): one linear
scan decomposing the text into protected and candidate segments.  Fuel is
consumed one unit per step; every step consumes at least one character. -/
def segmentGoF : Nat → List Char → List Char → List Seg
  | 0, l, acc => pushCand (acc.reverse ++ l) []
  | _ + 1, [], acc => pushCand acc.reverse []
  | n + 1, c :: cs, acc =>
    match protStart (c :: cs) with
    | some (sp, rest) => pushCand acc.reverse (Seg.prot sp :: segmentGoF n rest [])
    | none => segmentGoF n cs (c :: acc)

/-- Decompose a text into protected and candidate segments. -/
def segmentL (l : List Char) : List Seg :=
  segmentGoF l.length l []

/-- Concatenate the segments back (the unmask step). -/
def joinSegs (segs : List Seg) : List Char :=
  segs.foldr (fun s acc => s.bytes ++ acc) []

/-- Replacement over one segment: protected spans are restored verbatim,
candidate spans get the link-replacement scan. -/
def transSeg (S : List (List Char)) : Seg → Seg
  | .prot p => .prot p
  | .cand c => .cand (replaceLinks S c)

/-- The whole transformation on a character list: mask, rewrite link
tokens in the candidate segments, unmask (spec section 4.5; source
lines 125-139). -/
def transformL (S : List (List Char)) (l : List Char) : List Char :=
  joinSegs ((segmentL l).map (transSeg S))

/-- `transform` on `String`s, with the valid-name set as a string list. -/
def transform (t : String) (S : List String) : String :=
  ⟨transformL (S.map String.data) t.data⟩

/-- The `changed` flag of the spec's transform contract (spec section
4.5 step 4): the pair `(newText, changed)`. -/
def transformChanged (t : String) (S : List String) : String × Bool :=
  let nt := transform t S
  (nt, nt ≠ t)

/-- Embeds the save guard of `treat_page` (source lines 141-145): the
update operation is issued, carrying the new text, exactly when the new
text differs from the original; otherwise no update is issued. -/
def treatPageUpdate (t : String) (S : List String) : Option String :=
  let nt := transform t S
  if nt ≠ t then some nt else none

/-- Python `str.splitlines()` restricted to the usual line breaks:
`\r\n`, `\r` and `\n` end a line; no trailing empty line is produced. -/
def splitLinesGo : List Char → List Char → List (List Char)
  | [], acc => if acc.isEmpty then [] else [acc.reverse]
  | '\r' :: '\n' :: cs, acc => acc.reverse :: splitLinesGo cs []
  | '\r' :: cs, acc => acc.reverse :: splitLinesGo cs []
  | '\n' :: cs, acc => acc.reverse :: splitLinesGo cs []
  | c :: cs, acc => splitLinesGo cs (c :: acc)

/-- The lines of a document. -/
def pySplitLines (l : List Char) : List (List Char) :=
  splitLinesGo l []

/-- The contribution of one document line to the valid-name set, embedding
the loop body of `get_valid_names` (source lines 159-164): strip the
line; if it starts with the bullet marker, the stripped remainder after
the marker is a name when non-empty. -/
def lineName (line : List Char) : Option (List Char) :=
  let t := pyStrip line
  if t.take 2 = ['*', ' '] then
    let name := pyStrip (t.drop 2)
    if name = [] then none else some name
  else none

/-- Embeds `get_valid_names` (source lines 147-167) applied to the text of
the name-list page: every line contributes via `lineName`. -/
def getValidNames (doc : String) : List (List Char) :=
  (pySplitLines doc.data).filterMap lineName

/-- No suffix of the text begins a link-regex match: the scan finds
nothing to replace. -/
def noLinkMatch : List Char → Bool
  | [] => true
  | c :: cs => (matchLink (c :: cs)).isNone && noLinkMatch cs

/-- No suffix of the text begins a protected region: the masking pass
masks nothing. -/
def noProtStart : List Char → Bool
  | [] => true
  | c :: cs => (protStart (c :: cs)).isNone && noProtStart cs

/-- The text begins with a protected-region opening delimiter (a comment
marker or a protected tag), case-insensitively. -/
def protOpener (p : List Char) : Bool :=
  startsWithCI "<!--".data p ||
    protTags.any (fun tag => startsWithCI ('<' :: (tag ++ ['>'])) p)

end CharacterLinkFix

namespace CharacterLinkFix

/-- Claim C3: `reverse_name` splits on runs of whitespace, returns the
name unchanged below two components, and otherwise joins all components
reversed with single spaces; it is a pure function (a Lean function by
construction), with the spec's concrete examples. -/
theorem C3_reverse_name (name : String) :
    reverseName name =
      (if 2 ≤ (pySplit name.data).length then
        (⟨joinSpace (pySplit name.data).reverse⟩ : String)
      else name) ∧
    reverseName "Aoi Megumi" = "Megumi Aoi" ∧
    reverseName "Solo" = "Solo" ∧
    reverseName "A B C" = "C B A" := by
  refine ⟨?_, by decide, by decide, by decide⟩
  by_cases h : 2 ≤ (pySplit name.data).length
  · simp only [reverseName, reverseNameL, if_pos h]
  · simp only [reverseName, reverseNameL, if_neg h]

/-- Claim C2: the base is replaced by its reversal exactly when the
reversed string is in the canonical set and differs from the base; in
every other case the base is kept unchanged (total function, no error
path). -/
theorem C2_reversal_guard (S : List (List Char)) (b : List Char) :
    (newBase S b = reverseNameL b ∨ newBase S b = b) ∧
    (newBase S b ≠ b ↔ reverseNameL b ∈ S ∧ reverseNameL b ≠ b) ∧
    (reverseNameL b ∈ S ∧ reverseNameL b ≠ b → newBase S b = reverseNameL b) ∧
    (¬(reverseNameL b ∈ S ∧ reverseNameL b ≠ b) → newBase S b = b) := by
  unfold newBase
  by_cases h : reverseNameL b ∈ S ∧ reverseNameL b ≠ b
  · rw [if_pos h]
    exact ⟨Or.inl rfl, ⟨fun _ => h, fun _ => h.2⟩, fun _ => rfl, fun hn => absurd h hn⟩
  · rw [if_neg h]
    exact ⟨Or.inr rfl, ⟨fun hb => absurd rfl hb, fun hh => absurd hh h⟩,
      fun hh => absurd hh h, fun _ => rfl⟩

theorem takeWhile_hash_not_mem (l : List Char) :
    '#' ∉ l.takeWhile (fun c => c ≠ '#') := by
  intro h
  have := List.mem_takeWhile_imp h
  simp at this

theorem dropWhile_hash_head (l : List Char) (h : '#' ∈ l) :
    (l.dropWhile (fun c => c ≠ '#')).take 1 = ['#'] := by
  induction l with
  | nil => cases h
  | cons c cs ih =>
    by_cases hc : c = '#'
    · subst hc
      simp [List.dropWhile]
    · rw [List.dropWhile_cons_of_pos (by simp [hc])]
      rcases List.mem_cons.mp h with h1 | h2
      · exact absurd h1.symm hc
      · exact ih h2

/-- Claim C4: a target containing `#` is split into base and anchor at
the first `#`; only the base is rewritten and the anchor, with its `#`,
is re-attached verbatim; with S containing "Megumi Aoi",
`[[Aoi Megumi#History]]` rewrites to `[[Megumi Aoi#History]]`. -/
theorem C4_anchor (S : List (List Char)) (raw : List Char)
    (h : '#' ∈ raw) :
    (splitAnchor raw).1 ++ (splitAnchor raw).2 = raw ∧
    '#' ∉ (splitAnchor raw).1 ∧
    (splitAnchor raw).2.take 1 = ['#'] ∧
    finalTargetOf S raw = newBase S (splitAnchor raw).1 ++ (splitAnchor raw).2 ∧
    transform "[[Aoi Megumi#History]]" ["Megumi Aoi"] = "[[Megumi Aoi#History]]" := by
  have hs : splitAnchor raw =
      (raw.takeWhile (fun c => c ≠ '#'), raw.dropWhile (fun c => c ≠ '#')) := by
    rw [splitAnchor, if_pos h]
  refine ⟨?_, ?_, ?_, rfl, by decide⟩
  · rw [hs]
    exact List.takeWhile_append_dropWhile _ raw
  · rw [hs]
    exact takeWhile_hash_not_mem raw
  · rw [hs]
    exact dropWhile_hash_head raw h

/-- Claim C5: with a (non-empty) label present, when the final target
equals the raw target the label is dropped exactly when its trimmed form
equals the base (else the token is verbatim); when the target changed,
the label is dropped exactly when its trimmed form equals the old or the
new base, otherwise the original label is paired with the new target. -/
theorem C5_label (S : List (List Char)) (g1 d : List Char) :
    (d ≠ [] → finalTargetOf S (pyStrip g1) = pyStrip g1 →
      replaceLink S g1 (some d) =
        if pyStrip d = (splitAnchor (pyStrip g1)).1 then
          mkTargetOnly (finalTargetOf S (pyStrip g1))
        else mkFull g1 (some d)) ∧
    (d ≠ [] → finalTargetOf S (pyStrip g1) ≠ pyStrip g1 →
      replaceLink S g1 (some d) =
        if pyStrip d = (splitAnchor (pyStrip g1)).1 ∨
            pyStrip d = newBase S (splitAnchor (pyStrip g1)).1 then
          mkTargetOnly (finalTargetOf S (pyStrip g1))
        else mkLabeled (finalTargetOf S (pyStrip g1)) d) := by
  constructor
  · intro hd hft
    rw [replaceLink, if_pos hft]
    by_cases hb : pyStrip d = (splitAnchor (pyStrip g1)).1
    · rw [if_pos ⟨hd, hb⟩, if_pos hb]
    · rw [if_neg (fun hc => hb hc.2), if_neg hb]
  · intro hd hft
    rw [replaceLink, if_neg hft, if_neg hd]

/-- Witness for C5, at a token whose target is rewritten and whose label
trims to the old base, so the label is dropped. -/
theorem C5_label_witness :
    "Aoi Megumi".data ≠ ([] : List Char) ∧
    replaceLink ["Megumi Aoi".data] "Aoi Megumi".data (some "Aoi Megumi".data) =
      mkTargetOnly "Megumi Aoi".data :=
  ⟨by decide,
    by
      have h :=
        (C5_label ["Megumi Aoi".data] "Aoi Megumi".data "Aoi Megumi".data).2
          (by decide) (by decide)
      rw [h]
      decide⟩

/-- Claim C10 (implicit): the matched target is stripped of surrounding
whitespace before anchor-splitting, reversal and all comparisons, so any
output that is not the verbatim token carries the stripped final target;
`[[ Aoi Megumi ]]` with {"Megumi Aoi"} becomes `[[Megumi Aoi]]` (losing
the whitespace), while a no-change token keeps its whitespace verbatim. -/
theorem C10_strip (S : List (List Char)) (g1 : List Char)
    (lbl : Option (List Char)) :
    (replaceLink S g1 lbl = mkFull g1 lbl ∨
     replaceLink S g1 lbl = mkTargetOnly (finalTargetOf S (pyStrip g1)) ∨
     ∃ d, lbl = some d ∧
       replaceLink S g1 lbl = mkLabeled (finalTargetOf S (pyStrip g1)) d) ∧
    transform "[[ Aoi Megumi ]]" ["Megumi Aoi"] = "[[Megumi Aoi]]" ∧
    transform "[[ Aoi Megumi ]]" [] = "[[ Aoi Megumi ]]" := by
  refine ⟨?_, by decide, by decide⟩
  rcases lbl with _ | d
  · simp only [replaceLink]
    by_cases hft : finalTargetOf S (pyStrip g1) = pyStrip g1
    · rw [if_pos hft]
      exact Or.inl rfl
    · rw [if_neg hft]
      exact Or.inr (Or.inl rfl)
  · simp only [replaceLink]
    by_cases hft : finalTargetOf S (pyStrip g1) = pyStrip g1
    · rw [if_pos hft]
      by_cases hb : d ≠ [] ∧ pyStrip d = (splitAnchor (pyStrip g1)).1
      · rw [if_pos hb]
        exact Or.inr (Or.inl rfl)
      · rw [if_neg hb]
        exact Or.inl rfl
    · rw [if_neg hft]
      by_cases hd : d = []
      · rw [if_pos hd]
        exact Or.inr (Or.inl rfl)
      · rw [if_neg hd]
        by_cases hb : pyStrip d = (splitAnchor (pyStrip g1)).1 ∨
            pyStrip d = newBase S (splitAnchor (pyStrip g1)).1
        · rw [if_pos hb]
          exact Or.inr (Or.inl rfl)
        · rw [if_neg hb]
          exact Or.inr (Or.inr ⟨d, rfl, rfl⟩)

/-- Claim C8: the valid-name set is exactly the non-empty trimmed
remainders of trimmed document lines beginning with the bullet marker
`* `; blank and non-matching lines contribute nothing. -/
theorem C8_valid_names (doc : String) (n : List Char) :
    (n ∈ getValidNames doc ↔
      ∃ line, line ∈ pySplitLines doc.data ∧
        (pyStrip line).take 2 = ['*', ' '] ∧
        n = pyStrip ((pyStrip line).drop 2) ∧ n ≠ []) ∧
    getValidNames "* Megumi Aoi\nplain line\n*NoSpace\n\n  * Padded  " =
      ["Megumi Aoi".data, "Padded".data] := by
  refine ⟨?_, by decide⟩
  rw [getValidNames, List.mem_filterMap]
  constructor
  · rintro ⟨line, hm, he⟩
    rw [lineName] at he
    by_cases h1 : (pyStrip line).take 2 = ['*', ' ']
    · rw [if_pos h1] at he
      by_cases h2 : pyStrip ((pyStrip line).drop 2) = []
      · rw [if_pos h2] at he
        cases he
      · rw [if_neg h2] at he
        have hn := (Option.some_inj.mp he).symm
        exact ⟨line, hm, h1, hn, fun hz => h2 (hn ▸ hz)⟩
    · rw [if_neg h1] at he
      cases he
  · rintro ⟨line, hm, h1, hn, hne⟩
    refine ⟨line, hm, ?_⟩
    rw [lineName, if_pos h1, if_neg (fun hz => hne (hn.trans hz))]
    exact congrArg some hn.symm

/-- Claim C9: the transform's changed flag is true exactly when the new
text differs from the input, and the persistence update is issued with
the new text exactly when that flag holds; nothing is issued otherwise. -/
theorem C9_changed_guard (t : String) (S : List String) :
    ((transformChanged t S).2 = true ↔ transform t S ≠ t) ∧
    (transformChanged t S).1 = transform t S ∧
    (∀ u : String, treatPageUpdate t S = some u ↔
      transform t S ≠ t ∧ u = transform t S) ∧
    (treatPageUpdate t S = none ↔ transform t S = t) := by
  by_cases h : transform t S = t
  · simp [transformChanged, treatPageUpdate, h]
  · simp [transformChanged, treatPageUpdate, h]
    intro u
    constructor
    · intro hu
      exact hu.symm
    · intro hu
      exact hu.symm

/-- Claim C1: idempotence fails on the code.  With a canonical set
holding both orderings of a name, the transform oscillates: a second
application undoes the first instead of being a no-op, violating the
spec's idempotence requirement. -/
theorem C1_not_idempotent :
    transform "[[A B]]" ["A B", "B A"] = "[[B A]]" ∧
    transform (transform "[[A B]]" ["A B", "B A"]) ["A B", "B A"] = "[[A B]]" ∧
    transform (transform "[[A B]]" ["A B", "B A"]) ["A B", "B A"] ≠
      transform "[[A B]]" ["A B", "B A"] := by
  decide

theorem replaceLinksF_id_of_noLinkMatch (S : List (List Char)) :
    ∀ (n : Nat) (l : List Char), noLinkMatch l = true → replaceLinksF S n l = l := by
  intro n
  induction n with
  | zero => intro l _; rfl
  | succ n ih =>
    intro l h
    cases l with
    | nil => rfl
    | cons c cs =>
      rw [noLinkMatch, Bool.and_eq_true] at h
      cases hm : matchLink (c :: cs) with
      | some r => rw [hm] at h; cases h.1
      | none =>
        simp only [replaceLinksF, hm]
        rw [ih cs h.2]

theorem segmentGoF_of_noProt :
    ∀ (n : Nat) (l acc : List Char), noProtStart l = true →
      segmentGoF n l acc = pushCand (acc.reverse ++ l) [] := by
  intro n
  induction n with
  | zero => intro l acc _; rfl
  | succ n ih =>
    intro l acc h
    cases l with
    | nil => simp only [segmentGoF, List.append_nil]
    | cons c cs =>
      rw [noProtStart, Bool.and_eq_true] at h
      cases hm : protStart (c :: cs) with
      | some r => rw [hm] at h; cases h.1
      | none =>
        simp only [segmentGoF, hm]
        rw [ih cs (c :: acc) h.2]
        simp [List.append_assoc]

/-- Claim C7: the core is a total function (it is a Lean function by
construction, so it raises nothing); when no suffix of the input begins
a protected region and none begins a link-regex match — in particular on
unterminated delimiters and unbalanced bracket sequences — the transform
leaves the whole text verbatim: every decision degrades to no change. -/
theorem C7_malformed_verbatim (t : String) (S : List String)
    (hp : noProtStart t.data = true) (hl : noLinkMatch t.data = true) :
    transform t S = t := by
  have hrl : replaceLinks (S.map String.data) t.data = t.data :=
    replaceLinksF_id_of_noLinkMatch _ _ _ hl
  have htl : transformL (S.map String.data) t.data = t.data := by
    rw [transformL, segmentL, segmentGoF_of_noProt _ _ _ hp]
    by_cases hnil : t.data = []
    · simp [pushCand, hnil, joinSegs]
    · simp only [List.reverse_nil, List.nil_append, pushCand, if_neg hnil]
      simp [joinSegs, transSeg, Seg.bytes, hrl]
  exact congrArg String.mk htl

/-- Witness for C7: an unterminated comment opener together with an
unbalanced link opener is left byte-for-byte unchanged. -/
theorem C7_malformed_verbatim_witness :
    noProtStart "<!-- x [[A B".data = true ∧
    noLinkMatch "<!-- x [[A B".data = true ∧
    transform "<!-- x [[A B" ["Megumi Aoi"] = "<!-- x [[A B" :=
  ⟨by decide, by decide,
    C7_malformed_verbatim "<!-- x [[A B" ["Megumi Aoi"] (by decide) (by decide)⟩

theorem startsWithCI_length {pat l : List Char} (h : startsWithCI pat l = true) :
    pat.length ≤ l.length := by
  induction pat generalizing l with
  | nil => simp
  | cons p ps ih =>
    cases l with
    | nil => simp [startsWithCI] at h
    | cons c cs =>
      rw [startsWithCI, Bool.and_eq_true] at h
      simpa using Nat.succ_le_succ (ih h.2)

theorem startsWithCI_append {pat x : List Char} (y : List Char)
    (h : startsWithCI pat x = true) : startsWithCI pat (x ++ y) = true := by
  induction pat generalizing x with
  | nil => rfl
  | cons p ps ih =>
    cases x with
    | nil => simp [startsWithCI] at h
    | cons c cs =>
      rw [List.cons_append, startsWithCI, Bool.and_eq_true]
      rw [startsWithCI, Bool.and_eq_true] at h
      exact ⟨h.1, ih h.2⟩

theorem startsWithCI_take {pat l : List Char} (h : startsWithCI pat l = true) :
    startsWithCI pat (l.take pat.length) = true := by
  induction pat generalizing l with
  | nil => rfl
  | cons p ps ih =>
    cases l with
    | nil => simp [startsWithCI] at h
    | cons c cs =>
      rw [startsWithCI, Bool.and_eq_true] at h
      rw [List.length_cons, List.take_succ_cons, startsWithCI, Bool.and_eq_true]
      exact ⟨h.1, ih h.2⟩

theorem splitAtSub_append {pat : List Char} :
    ∀ {l m rest : List Char}, splitAtSub pat l = some (m, rest) → m ++ rest = l := by
  intro l
  induction l with
  | nil => intro m rest h; simp [splitAtSub] at h
  | cons c cs ih =>
    intro m rest h
    rw [splitAtSub] at h
    by_cases hs : startsWithCI pat (c :: cs) = true
    · rw [if_pos hs] at h
      cases h
      exact List.take_append_drop _ _
    · rw [if_neg hs] at h
      cases hsub : splitAtSub pat cs with
      | none => rw [hsub] at h; cases h
      | some ab =>
        obtain ⟨a, b⟩ := ab
        rw [hsub] at h
        cases h
        rw [List.cons_append, ih hsub]

theorem tagBlock_append {tag l sp rest : List Char}
    (h : tagBlock tag l = some (sp, rest)) : sp ++ rest = l := by
  simp only [tagBlock] at h
  by_cases hs : startsWithCI ('<' :: (tag ++ ['>'])) l = true
  · rw [if_pos hs] at h
    cases hsub : splitAtSub ('<' :: '/' :: (tag ++ ['>']))
        (l.drop ('<' :: (tag ++ ['>'])).length) with
    | none => rw [hsub] at h; cases h
    | some mr =>
      obtain ⟨mid, r⟩ := mr
      rw [hsub] at h
      cases h
      rw [List.append_assoc, splitAtSub_append hsub]
      exact List.take_append_drop _ _
  · rw [if_neg hs] at h
    cases h

theorem tagBlockAny_append :
    ∀ (tags : List (List Char)) {l sp rest : List Char},
      tagBlockAny tags l = some (sp, rest) → sp ++ rest = l := by
  intro tags
  induction tags with
  | nil => intro l sp rest h; cases h
  | cons tag tags ih =>
    intro l sp rest h
    rw [tagBlockAny] at h
    cases htb : tagBlock tag l with
    | some r => rw [htb] at h; cases h; exact tagBlock_append htb
    | none => rw [htb] at h; exact ih h

theorem protStart_append {l sp rest : List Char}
    (h : protStart l = some (sp, rest)) : sp ++ rest = l := by
  rw [protStart] at h
  by_cases hs : startsWithCI "<!--".data l = true
  · rw [if_pos hs] at h
    cases hsub : splitAtSub "-->".data (l.drop 4) with
    | none => rw [hsub] at h; cases h
    | some mr =>
      obtain ⟨mid, r⟩ := mr
      rw [hsub] at h
      cases h
      rw [List.append_assoc, splitAtSub_append hsub]
      exact List.take_append_drop _ _
  · rw [if_neg hs] at h
    exact tagBlockAny_append protTags h

theorem tagBlockAny_opener :
    ∀ (tags : List (List Char)) {l sp rest : List Char},
      tagBlockAny tags l = some (sp, rest) →
      ∃ tag, tag ∈ tags ∧ startsWithCI ('<' :: (tag ++ ['>'])) sp = true := by
  intro tags
  induction tags with
  | nil => intro l sp rest h; cases h
  | cons tag tags ih =>
    intro l sp rest h
    rw [tagBlockAny] at h
    cases htb : tagBlock tag l with
    | some r =>
      rw [htb] at h
      cases h
      simp only [tagBlock] at htb
      by_cases hs : startsWithCI ('<' :: (tag ++ ['>'])) l = true
      · rw [if_pos hs] at htb
        cases hsub : splitAtSub ('<' :: '/' :: (tag ++ ['>']))
            (l.drop ('<' :: (tag ++ ['>'])).length) with
        | none => rw [hsub] at htb; cases htb
        | some mr =>
          obtain ⟨mid, rr⟩ := mr
          rw [hsub] at htb
          cases htb
          exact ⟨tag, List.mem_cons_self tag tags,
            startsWithCI_append mid (startsWithCI_take hs)⟩
      · rw [if_neg hs] at htb
        cases htb
    | none =>
      rw [htb] at h
      obtain ⟨tg, htg, hsw⟩ := ih h
      exact ⟨tg, List.mem_cons_of_mem tag htg, hsw⟩

theorem protStart_opener {l sp rest : List Char}
    (h : protStart l = some (sp, rest)) : protOpener sp = true := by
  rw [protStart] at h
  by_cases hs : startsWithCI "<!--".data l = true
  · rw [if_pos hs] at h
    cases hsub : splitAtSub "-->".data (l.drop 4) with
    | none => rw [hsub] at h; cases h
    | some mr =>
      obtain ⟨mid, r⟩ := mr
      rw [hsub] at h
      cases h
      rw [protOpener, Bool.or_eq_true]
      exact Or.inl (startsWithCI_append mid (startsWithCI_take hs))
  · rw [if_neg hs] at h
    obtain ⟨tg, htg, hsw⟩ := tagBlockAny_opener protTags h
    rw [protOpener, Bool.or_eq_true]
    exact Or.inr (List.any_eq_true.mpr ⟨tg, htg, hsw⟩)

theorem joinSegs_pushCand (c : List Char) (segs : List Seg) :
    joinSegs (pushCand c segs) = c ++ joinSegs segs := by
  rw [pushCand]
  by_cases hc : c = []
  · simp [hc]
  · rw [if_neg hc]
    rfl

theorem joinSegs_segmentGoF :
    ∀ (n : Nat) (l acc : List Char),
      joinSegs (segmentGoF n l acc) = acc.reverse ++ l := by
  intro n
  induction n with
  | zero =>
    intro l acc
    rw [segmentGoF, joinSegs_pushCand]
    simp [joinSegs]
  | succ n ih =>
    intro l acc
    cases l with
    | nil =>
      rw [segmentGoF, joinSegs_pushCand]
      simp [joinSegs]
    | cons c cs =>
      cases hm : protStart (c :: cs) with
      | some r =>
        obtain ⟨sp, rest⟩ := r
        simp only [segmentGoF, hm]
        rw [joinSegs_pushCand]
        have hjoin : joinSegs (Seg.prot sp :: segmentGoF n rest []) =
            sp ++ joinSegs (segmentGoF n rest []) := rfl
        rw [hjoin, ih rest []]
        simp [protStart_append hm]
      | none =>
        simp only [segmentGoF, hm]
        rw [ih cs (c :: acc)]
        simp [List.append_assoc]

theorem prot_mem_pushCand {p c : List Char} {segs : List Seg}
    (h : Seg.prot p ∈ pushCand c segs) : Seg.prot p ∈ segs := by
  rw [pushCand] at h
  by_cases hc : c = []
  · rwa [if_pos hc] at h
  · rw [if_neg hc] at h
    rcases List.mem_cons.mp h with heq | hmem
    · exact absurd heq (by simp)
    · exact hmem

theorem prot_segmentGoF :
    ∀ (n : Nat) (l acc p : List Char),
      Seg.prot p ∈ segmentGoF n l acc → protOpener p = true := by
  intro n
  induction n with
  | zero =>
    intro l acc p h
    rw [segmentGoF] at h
    cases prot_mem_pushCand h
  | succ n ih =>
    intro l acc p h
    cases l with
    | nil =>
      rw [segmentGoF] at h
      cases prot_mem_pushCand h
    | cons c cs =>
      cases hm : protStart (c :: cs) with
      | some r =>
        obtain ⟨sp, rest⟩ := r
        simp only [segmentGoF, hm] at h
        rcases List.mem_cons.mp (prot_mem_pushCand h) with heq | hmem
        · cases heq
          exact protStart_opener hm
        · exact ih rest [] p hmem
      | none =>
        simp only [segmentGoF, hm] at h
        exact ih cs (c :: acc) p h

theorem joinSegs_map_mem (S : List (List Char)) {p : List Char} :
    ∀ (segs : List Seg), Seg.prot p ∈ segs →
      ∃ a b, joinSegs (segs.map (transSeg S)) = a ++ p ++ b := by
  intro segs
  induction segs with
  | nil => intro h; cases h
  | cons s rest ih =>
    intro h
    rcases List.mem_cons.mp h with heq | hmem
    · refine ⟨[], joinSegs (rest.map (transSeg S)), ?_⟩
      rw [← heq]
      rfl
    · obtain ⟨a, b, hab⟩ := ih hmem
      refine ⟨(transSeg S s).bytes ++ a, b, ?_⟩
      have hj : joinSegs ((s :: rest).map (transSeg S)) =
          (transSeg S s).bytes ++ joinSegs (rest.map (transSeg S)) := rfl
      rw [hj, hab]
      simp [List.append_assoc]

/-- Claim C6: protected-region immunity (masking modelled from the spec,
since `textlib.replaceExcept` is pywikibot library code): the segment
scan loses no byte (mask then unmask restores the text exactly), the
transform is the per-segment map that keeps every protected segment
verbatim, every protected segment begins with a protected-region
delimiter and reappears byte-identically inside the output, and on a
concrete text the link inside `<pre>`/comment blocks is untouched while
the unprotected one is rewritten. -/
theorem C6_protected_immunity (t : String) (S : List String) :
    joinSegs (segmentL t.data) = t.data ∧
    transform t S =
      ⟨joinSegs ((segmentL t.data).map (transSeg (S.map String.data)))⟩ ∧
    (∀ p, Seg.prot p ∈ segmentL t.data →
      protOpener p = true ∧ ∃ a b, (transform t S).data = a ++ p ++ b) ∧
    transform "x [[Aoi Megumi]] <pre>[[Aoi Megumi]]</pre> <!--[[Aoi Megumi]]-->"
        ["Megumi Aoi"] =
      "x [[Megumi Aoi]] <pre>[[Aoi Megumi]]</pre> <!--[[Aoi Megumi]]-->" ∧
    segmentL "<nowiki>[[Aoi Megumi]]</nowiki>".data =
      [Seg.prot "<nowiki>[[Aoi Megumi]]</nowiki>".data] := by
  refine ⟨?_, rfl, ?_, by decide, by decide⟩
  · rw [segmentL, joinSegs_segmentGoF]
    rfl
  · intro p hp
    exact ⟨prot_segmentGoF _ _ _ _ hp,
      joinSegs_map_mem (S.map String.data) (segmentL t.data) hp⟩

/-- Witness for C4 at a concrete anchored target. -/
theorem C4_anchor_witness :
    '#' ∈ "Aoi Megumi#History".data ∧
    (splitAnchor "Aoi Megumi#History".data).1 ++
      (splitAnchor "Aoi Megumi#History".data).2 = "Aoi Megumi#History".data ∧
    (splitAnchor "Aoi Megumi#History".data).2.take 1 = ['#'] :=
  ⟨by decide,
    (C4_anchor ["Megumi Aoi".data] "Aoi Megumi#History".data (by decide)).1,
    (C4_anchor ["Megumi Aoi".data] "Aoi Megumi#History".data (by decide)).2.2.1⟩

end CharacterLinkFix
